import Mathlib

/-!
Verification development for the MeSH hierarchy extractor
(`scraping_labels/scraper.py`, legacy "v1", and
`scraping_labels/scraper_v2.py`, "v2").

The core of the program is pure data manipulation: parsing a catalog of
descriptor records into lookup dictionaries, inferring parent/child edges
from dot-delimited tree-number strings, and generating labelled training
pairs.  We embed that core shallowly:

* Python strings are `String`; `str.split('.')` and `'.'.join` are
  `splitDot` / `joinDot` below, with Python's exact semantics.
* Python `dict` is an association list in insertion order (`Dict`):
  assignment to an existing key replaces the value in place, assignment
  to a fresh key appends at the end, exactly as CPython dicts behave.
* `defaultdict(list)` / `defaultdict(set)` accesses are `dappend` /
  `daddSet`; the set is modelled as a duplicate-free list in insertion
  order (CPython leaves set iteration order unspecified; the claims we
  settle do not depend on it).
* `ET.fromstring` either fails (malformed markup) or yields a list of
  raw descriptor records (`MeshInput`); a raw record carries the
  optional fields the scrapers read.
* Exceptions (`ET.ParseError`, `AttributeError`, `KeyError`) are the
  `PyErr` alternatives of an `Except`; a raised parse carries the
  extractor state as it was at raise time.
-/

/-- Python `str.split('.')` worker over the character list; `acc` holds the
current segment reversed. -/
def splitDotAux : List Char → List Char → List String
  | [], acc => [String.mk acc.reverse]
  | c :: rest, acc =>
      if c = '.' then String.mk acc.reverse :: splitDotAux rest []
      else splitDotAux rest (c :: acc)

/-- Python `s.split('.')`: e.g. `"C01.123".split('.') == ["C01","123"]`,
`"".split('.') == [""]`. -/
def splitDot (s : String) : List String :=
  splitDotAux s.data []

/-- Python `'.'.join(parts)`. -/
def joinDot : List String → String
  | [] => ""
  | [s] => s
  | s :: rest => s ++ "." ++ joinDot rest

/-- Python `s.lower()` (ASCII-adequate model used for the case-insensitive
name comparison in `search_mesh_by_name`). -/
def lowerStr (s : String) : String :=
  String.mk (s.data.map Char.toLower)

/-- A Python `dict` with string keys, as an association list in insertion
order. -/
abbrev Dict (α : Type) := List (String × α)

/-- Python `d[k]` as a total lookup (`some` iff the key is present). -/
def dlookup {α : Type} : Dict α → String → Option α
  | [], _ => none
  | e :: rest, k => if e.1 = k then some e.2 else dlookup rest k

/-- Python `d[k] = v`: replace in place when `k` is present (a CPython dict
keeps the key's original position), append at the end otherwise. -/
def dinsert {α : Type} (d : Dict α) (k : String) (v : α) : Dict α :=
  if (dlookup d k).isSome then
    d.map (fun e => if e.1 = k then (e.1, v) else e)
  else d ++ [(k, v)]

/-- In-place mutation of the value stored at an existing key
(`d[k].append(...)`-style statements); a no-op when the key is absent. -/
def dmodify {α : Type} (d : Dict α) (k : String) (f : α → α) : Dict α :=
  d.map (fun e => if e.1 = k then (e.1, f e.2) else e)

/-- `defaultdict(list)`: `d[k].append(v)` — creates `[v]` at the end when
`k` is fresh, appends to the stored list otherwise. -/
def dappend (d : Dict (List String)) (k v : String) : Dict (List String) :=
  if (dlookup d k).isSome then dmodify d k (fun l => l ++ [v])
  else d ++ [(k, [v])]

/-- `defaultdict(set)`: `d[k].add(v)` — creates `{v}` at the end when `k`
is fresh, otherwise adds `v` unless already a member. -/
def daddSet (d : Dict (List String)) (k v : String) : Dict (List String) :=
  if v ∈ (dlookup d k).getD [] then d
  else if (dlookup d k).isSome then dmodify d k (fun l => l ++ [v])
  else d ++ [(k, [v])]

/-- The children set registered for `p` (`parent_child_relations[p]`,
empty when absent — matching `.get(p, [])` and the generator's view). -/
def childrenOf (pcr : Dict (List String)) (p : String) : List String :=
  (dlookup pcr p).getD []

/-- A raw `<DescriptorRecord>` element as the scrapers see it.  `none`
models an absent sub-element (`find(...)` returning `None`). -/
structure RawRecord where
  ui : Option String
  name : Option String
  annot : Option String
  scopeNote : Option String
  treeNumbers : Option (List String)
deriving DecidableEq, Repr

/-- Complete per-descriptor information stored by v2 in
`descriptor_details[ui]`. -/
structure Details where
  mesh_id : String
  name : String
  definition : String
  tree_numbers : List String
deriving DecidableEq, Repr

/-- The exceptions the embedded code can raise: `xml.etree` parse failure
(`MalformedInput` in the spec's taxonomy), `AttributeError` from `.text`
on a missing element, `KeyError` from an absent dict key. -/
inductive PyErr where
  | parseError
  | attributeError
  | keyError
deriving DecidableEq, Repr

/-- The input to `parse_mesh_xml` after `ET.fromstring`: either the markup
is malformed, or it is well-formed and yields the descriptor records in
document order. -/
inductive MeshInput where
  | malformed
  | wellFormed (records : List RawRecord)
deriving DecidableEq, Repr

/-- The mutable state of v1's `MeSHHierarchyExtractor` (fields set in
`__init__`; `mesh_hierarchy` is declared but never touched). -/
structure StateV1 where
  mesh_hierarchy : Dict (List String)
  descriptor_to_tree : Dict (List String)
  tree_to_descriptor : Dict String
  parent_child_relations : Dict (List String)
deriving DecidableEq, Repr

/-- v1 `__init__`. -/
def initStateV1 : StateV1 :=
  { mesh_hierarchy := [], descriptor_to_tree := [], tree_to_descriptor := [],
    parent_child_relations := [] }

/-- The mutable state of v2's `MeSHHierarchyExtractor`. -/
structure StateV2 where
  mesh_hierarchy : Dict (List String)
  descriptor_to_tree : Dict (List String)
  tree_to_descriptor : Dict String
  parent_child_relations : Dict (List String)
  descriptor_details : Dict Details
  ui_to_tree : Dict (List String)
  tree_to_ui : Dict String
deriving DecidableEq, Repr

/-- v2 `__init__`. -/
def initStateV2 : StateV2 :=
  { mesh_hierarchy := [], descriptor_to_tree := [], tree_to_descriptor := [],
    parent_child_relations := [], descriptor_details := [], ui_to_tree := [],
    tree_to_ui := [] }

/-- `_extract_hierarchy_relations` (identical in v1 and v2): split the tree
number at dots; for each `i` in `range(1, len(parts))` form the joined
prefixes of lengths `i` and `i + 1`; when both are keys of
`tree_to_descriptor`, add an edge between the owning names.  The
`descriptor_name` argument is received but, as in the source, never used:
the child name is re-resolved through the table. -/
def extractHierarchyRelations (ttd : Dict String) (tree_number descriptor_name : String)
    (pcr : Dict (List String)) : Dict (List String) :=
  let parts := splitDot tree_number
  (List.range' 1 (parts.length - 1)).foldl (fun acc i =>
    let parent_tree := joinDot (parts.take i)
    let child_tree := joinDot (parts.take (i + 1))
    match dlookup ttd parent_tree, dlookup ttd child_tree with
    | some parent_name, some child_name => daddSet acc parent_name child_name
    | _, _ => acc) pcr

/-- v1 per-tree-number step (body of the `TreeNumber` loop in v1's
`parse_mesh_xml`): register the `descriptor_to_tree` /
`tree_to_descriptor` mappings, then run relation extraction on the
tables populated so far. -/
def v1ProcessTree (descriptor_name : String) (s : StateV1) (tree_number : String) :
    StateV1 :=
  let s := { s with descriptor_to_tree := dappend s.descriptor_to_tree descriptor_name tree_number }
  let s := { s with tree_to_descriptor := dinsert s.tree_to_descriptor tree_number descriptor_name }
  { s with parent_child_relations :=
      (extractHierarchyRelations s.tree_to_descriptor tree_number descriptor_name
        s.parent_child_relations) }

/-- v1 per-record step: `descriptor_record.find('DescriptorUI').text` and
`find('DescriptorName/String').text` raise `AttributeError` when the
element is absent (v1 has no guard); otherwise the tree numbers (if a
`TreeNumberList` is present) are processed in order. -/
def v1ProcessRecord (s : StateV1) (r : RawRecord) : Except (PyErr × StateV1) StateV1 :=
  match r.ui with
  | none => .error (.attributeError, s)
  | some _ =>
    match r.name with
    | none => .error (.attributeError, s)
    | some descriptor_name =>
      .ok ((r.treeNumbers.getD []).foldl (v1ProcessTree descriptor_name) s)

/-- v1 record loop; an exception aborts the loop, leaving the mutations
already made in place. -/
def v1ParseRecords (s : StateV1) : List RawRecord → Except (PyErr × StateV1) StateV1
  | [] => .ok s
  | r :: rest =>
    match v1ProcessRecord s r with
    | .error e => .error e
    | .ok s' => v1ParseRecords s' rest

/-- v1 `parse_mesh_xml`: `ET.fromstring` is the first statement, so a
malformed input raises before any state is touched. -/
def v1Parse (s : StateV1) : MeshInput → Except (PyErr × StateV1) StateV1
  | .malformed => .error (.parseError, s)
  | .wellFormed records => v1ParseRecords s records

/-- The `definition` stored by v2: the `Annotation` text when truthy, else
the first `Concept/ScopeNote` text when present, else `""`
(`annotation or ""`). -/
def recordDefinition (r : RawRecord) : String :=
  let a := (r.annot).getD ""
  if a = "" then (r.scopeNote).getD "" else a

/-- v2 per-tree-number step (body of the `TreeNumber` loop in v2's
`parse_mesh_xml`): append to `descriptor_details[…]['tree_numbers']`,
register the four flat mappings, then run relation extraction on the
tables populated so far.  The `hasattr` guards of the source are always
true because `__init__` sets both auxiliary tables. -/
def v2ProcessTree (descriptor_ui descriptor_name : String) (s : StateV2)
    (tree_number : String) : StateV2 :=
  let s := { s with descriptor_details :=
      (dmodify s.descriptor_details descriptor_ui
        (fun d => { d with tree_numbers := d.tree_numbers ++ [tree_number] })) }
  let s := { s with descriptor_to_tree := dappend s.descriptor_to_tree descriptor_name tree_number }
  let s := { s with tree_to_descriptor := dinsert s.tree_to_descriptor tree_number descriptor_name }
  let s := { s with ui_to_tree := dappend s.ui_to_tree descriptor_ui tree_number }
  let s := { s with tree_to_ui := dinsert s.tree_to_ui tree_number descriptor_ui }
  { s with parent_child_relations :=
      (extractHierarchyRelations s.tree_to_descriptor tree_number descriptor_name
        s.parent_child_relations) }

/-- v2 per-record step: a record whose `DescriptorUI` or
`DescriptorName/String` element is absent is skipped with `continue`;
otherwise its full details are stored and its tree numbers processed. -/
def v2ProcessRecord (s : StateV2) (r : RawRecord) : StateV2 :=
  match r.ui, r.name with
  | some descriptor_ui, some descriptor_name =>
    let s := { s with descriptor_details :=
        (dinsert s.descriptor_details descriptor_ui
          { mesh_id := descriptor_ui, name := descriptor_name,
            definition := recordDefinition r, tree_numbers := [] }) }
    (r.treeNumbers.getD []).foldl (v2ProcessTree descriptor_ui descriptor_name) s
  | _, _ => s

/-- v2 record loop (never raises: all per-record anomalies are skips). -/
def v2ParseRecords (s : StateV2) (records : List RawRecord) : StateV2 :=
  records.foldl v2ProcessRecord s

/-- v2 `parse_mesh_xml`: `ET.fromstring` runs first (so malformed input
raises with the state untouched); on success `descriptor_details` is
reset to `{}` and every record is processed. -/
def v2Parse (s : StateV2) : MeshInput → Except (PyErr × StateV2) StateV2
  | .malformed => .error (.parseError, s)
  | .wellFormed records => .ok (v2ParseRecords { s with descriptor_details := [] } records)

/-- A `(termA, termB, relationKind)` training pair. -/
abbrev Triple := String × String × String

/-- First loop of `get_label_hierarchy_for_micol`: one
`(parent, child, "parent_child")` triple per edge, in table order. -/
def parentChildTriples : Dict (List String) → List Triple
  | [] => []
  | (p, cs) :: rest => cs.map (fun c => (p, c, "parent_child")) ++ parentChildTriples rest

/-- Inner double loop of the sibling pass: for `children_list = c :: cs`,
pair `c` with every later child, then recurse. -/
def sibPairs : List String → List Triple
  | [] => []
  | c :: cs => cs.map (fun c2 => (c, c2, "siblings")) ++ sibPairs cs

/-- Second loop of `get_label_hierarchy_for_micol`: the sibling triples of
every parent's children list, in table order. -/
def siblingTriples : Dict (List String) → List Triple
  | [] => []
  | (_, cs) :: rest => sibPairs cs ++ siblingTriples rest

/-- The `similar_pairs` list both versions build: all parent-child triples
followed by all sibling triples. -/
def similarPairs (pcr : Dict (List String)) : List Triple :=
  parentChildTriples pcr ++ siblingTriples pcr

/-- v1 `get_label_hierarchy_for_micol`: builds `similar_pairs` and returns
it. -/
def v1GetLabelHierarchyForMicol (s : StateV1) : List Triple :=
  similarPairs s.parent_child_relations

/-- v2 `get_label_hierarchy_for_micol`: builds `similar_pairs` exactly as
v1 does, but the method body ends without a `return` statement, so the
call evaluates to Python `None`. -/
def v2GetLabelHierarchyForMicol (s : StateV2) : Option (List Triple) :=
  let similar_pairs := similarPairs s.parent_child_relations
  none

/-- Result record of `get_mesh_by_id` (the highlighted key-value view). -/
structure MeshInfo where
  uniqueId : String
  treeNums : List String
  termName : String
  defn : String
deriving DecidableEq, Repr

/-- v2 `get_mesh_by_id`: exact lookup in `descriptor_details`, `None` when
the id is unknown.  The method mutates nothing, so the returned state is
the input state. -/
def getMeshById (s : StateV2) (mesh_id : String) : Option MeshInfo × StateV2 :=
  (match dlookup s.descriptor_details mesh_id with
   | some details =>
     some { uniqueId := mesh_id, treeNums := details.tree_numbers,
            termName := details.name, defn := details.definition }
   | none => none, s)

/-- Scan of `descriptor_details.items()` in insertion order; the first
case-insensitive name match is returned through `get_mesh_by_id`. -/
def searchLoop (s : StateV2) (term_name : String) : Dict Details → Option MeshInfo
  | [] => none
  | (mesh_id, details) :: rest =>
    if lowerStr details.name = lowerStr term_name then (getMeshById s mesh_id).1
    else searchLoop s term_name rest

/-- v2 `search_mesh_by_name`: case-insensitive linear scan, `None` when no
name matches; mutates nothing. -/
def searchMeshByName (s : StateV2) (term_name : String) : Option MeshInfo × StateV2 :=
  (searchLoop s term_name s.descriptor_details, s)

/-- One parent reference in the result of `get_hierarchy_relations_by_id`. -/
structure ParentRef where
  id : String
  name : String
deriving DecidableEq, Repr

/-- Result record of `get_hierarchy_relations_by_id`. -/
structure HierRel where
  mesh_id : String
  term_name : String
  parents : List ParentRef
  children : List String
  tree_numbers : List String
deriving DecidableEq, Repr

/-- The parent-collection loop of `get_hierarchy_relations_by_id`: for each
tree number of depth > 1, strip the last segment; when `tree_to_ui` knows
the parent code, `descriptor_details[parent_id]` is read with a plain
subscript — a `KeyError` if that id is not (or no longer) present. -/
def parentsLoop (s : StateV2) : List String → Except PyErr (List ParentRef)
  | [] => .ok []
  | tree_num :: rest =>
    let parts := splitDot tree_num
    if parts.length > 1 then
      let parent_tree := joinDot parts.dropLast
      match dlookup s.tree_to_ui parent_tree with
      | some parent_id =>
        match dlookup s.descriptor_details parent_id with
        | some pd =>
          match parentsLoop s rest with
          | .ok ps => .ok ({ id := parent_id, name := pd.name } :: ps)
          | .error e => .error e
        | none => .error .keyError
      | none => parentsLoop s rest
    else parentsLoop s rest

/-- v2 `get_hierarchy_relations_by_id`: `None` when the id is unknown,
otherwise the parents (via tree-number truncation), the children from
`parent_child_relations.get(name, [])`, and the tree numbers; mutates
nothing. -/
def getHierarchyRelationsById (s : StateV2) (mesh_id : String) :
    Except PyErr (Option HierRel) × StateV2 :=
  (match dlookup s.descriptor_details mesh_id with
   | none => .ok none
   | some details =>
     match parentsLoop s details.tree_numbers with
     | .error e => .error e
     | .ok parents =>
       .ok (some { mesh_id := mesh_id, term_name := details.name,
                   parents := parents,
                   children := childrenOf s.parent_child_relations details.name,
                   tree_numbers := details.tree_numbers }), s)


/-- The body of the prefix loop of `_extract_hierarchy_relations`, as a
named function of the accumulator and the index (used to reason about the
fold in `extractHierarchyRelations`). -/
def extractStep (ttd : Dict String) (parts : List String) (acc : Dict (List String))
    (i : Nat) : Dict (List String) :=
  let parent_tree := joinDot (parts.take i)
  let child_tree := joinDot (parts.take (i + 1))
  match dlookup ttd parent_tree, dlookup ttd child_tree with
  | some parent_name, some child_name => daddSet acc parent_name child_name
  | _, _ => acc

/-- Invariant of `parent_child_relations`: keys are pairwise distinct (a
dict) and every stored children list is duplicate-free (a set). -/
def PCRInv (d : Dict (List String)) : Prop :=
  (d.map Prod.fst).Nodup ∧ ∀ e ∈ d, (e.2 : List String).Nodup

/-- The v2 acceptance test for a record: both the identifier element and
the name element are present. -/
def keepRec (r : RawRecord) : Bool :=
  r.ui.isSome && r.name.isSome

/-- Keys in order of first occurrence, continuing from `acc`. -/
def firstKeysFrom (acc : List String) : List String → List String
  | [] => acc
  | u :: us => firstKeysFrom (if u ∈ acc then acc else acc ++ [u]) us

/-- The identifiers of the records v2 accepts, in catalog order. -/
def acceptedUis (records : List RawRecord) : List String :=
  (records.filter keepRec).map (fun r => r.ui.getD "")

/-- The state a v1 `parse_mesh_xml` call leaves behind (the result state on
success, the state at raise time on an exception). -/
def v1Out (s : StateV1) (inp : MeshInput) : StateV1 :=
  match v1Parse s inp with
  | .ok t => t
  | .error e => e.2

/-- The state a v2 `parse_mesh_xml` call leaves behind. -/
def v2Out (s : StateV2) (inp : MeshInput) : StateV2 :=
  match v2Parse s inp with
  | .ok t => t
  | .error e => e.2

/-- Scenario record: identifier `X1`, name `Root`, code `C01`. -/
def recRoot : RawRecord :=
  { ui := some "X1", name := some "Root", annot := none, scopeNote := none,
    treeNumbers := some ["C01"] }

/-- Scenario record: identifier `X2`, name `Child`, code `C01.001`. -/
def recChild : RawRecord :=
  { ui := some "X2", name := some "Child", annot := none, scopeNote := none,
    treeNumbers := some ["C01.001"] }

/-- A record with no identifier element (v1 raises on it, v2 skips it). -/
def recNoUi : RawRecord :=
  { ui := none, name := some "NoUi", annot := none, scopeNote := none,
    treeNumbers := some ["C01"] }

/-- A single record owning both a code and its one-segment extension. -/
def recSelf : RawRecord :=
  { ui := some "X1", name := some "NN", annot := none, scopeNote := none,
    treeNumbers := some ["C01", "C01.001"] }

/-- A record whose code `C01` collides with `recRoot`'s under a different
name. -/
def recOther : RawRecord :=
  { ui := some "X9", name := some "Other", annot := none, scopeNote := none,
    treeNumbers := some ["C01"] }

/-- Scenario D record: name `A`, code `C01.001`. -/
def recA : RawRecord :=
  { ui := some "XA", name := some "A", annot := none, scopeNote := none,
    treeNumbers := some ["C01.001"] }

/-- Scenario D record: name `B`, code `C01.002`. -/
def recB : RawRecord :=
  { ui := some "XB", name := some "B", annot := none, scopeNote := none,
    treeNumbers := some ["C01.002"] }

/-- Two records sharing the display name `Dup` up to case. -/
def recDup1 : RawRecord :=
  { ui := some "D1", name := some "Dup", annot := none, scopeNote := none,
    treeNumbers := none }

/-- Second record with the (case-insensitively) duplicate name. -/
def recDup2 : RawRecord :=
  { ui := some "D2", name := some "DUP", annot := none, scopeNote := none,
    treeNumbers := none }

/-- What a later `parse_mesh_xml` call preserves of the accumulated v2
state: every key of the four flat tables stays present (list-valued
entries keep their old elements as a prefix), and every recorded
parent/child membership survives.  `descriptor_details` is deliberately
not mentioned: it is reset by each call. -/
def Retains (s s' : StateV2) : Prop :=
  (∀ k v, dlookup s.descriptor_to_tree k = some v →
     ∃ t, dlookup s'.descriptor_to_tree k = some (v ++ t)) ∧
  (∀ k v, dlookup s.ui_to_tree k = some v →
     ∃ t, dlookup s'.ui_to_tree k = some (v ++ t)) ∧
  (∀ k, (dlookup s.tree_to_descriptor k).isSome →
     (dlookup s'.tree_to_descriptor k).isSome) ∧
  (∀ k, (dlookup s.tree_to_ui k).isSome → (dlookup s'.tree_to_ui k).isSome) ∧
  (∀ p c, c ∈ childrenOf s.parent_child_relations p →
     c ∈ childrenOf s'.parent_child_relations p)

/-! ### Basic facts about the dictionary model -/

theorem dlookup_append_of_none {α : Type} {d : Dict α} {k' : String}
    (h : dlookup d k' = none) (e : String × α) :
    dlookup (d ++ [e]) k' = if e.1 = k' then some e.2 else none := by
  induction d with
  | nil => simp [dlookup]
  | cons hd tl ih =>
    obtain ⟨a, b⟩ := hd
    by_cases h1 : a = k'
    · simp [dlookup, h1] at h
    · simp only [dlookup, if_neg h1] at h
      simpa [dlookup, h1] using ih h

theorem dlookup_append_of_some {α : Type} {d : Dict α} {k' : String} {w : α}
    (h : dlookup d k' = some w) (e : String × α) :
    dlookup (d ++ [e]) k' = some w := by
  induction d with
  | nil => simp [dlookup] at h
  | cons hd tl ih =>
    obtain ⟨a, b⟩ := hd
    by_cases h1 : a = k'
    · simp only [dlookup, if_pos h1] at h
      simpa [dlookup, h1] using h
    · simp only [dlookup, if_neg h1] at h
      simpa [dlookup, h1] using ih h

theorem dlookup_dmodify {α : Type} (d : Dict α) (k : String) (f : α → α) (k' : String) :
    dlookup (dmodify d k f) k' =
      if k' = k then (dlookup d k).map f else dlookup d k' := by
  induction d with
  | nil => simp [dlookup, dmodify]
  | cons hd tl ih =>
    obtain ⟨a, b⟩ := hd
    unfold dmodify at ih ⊢
    by_cases h1 : a = k
    · subst h1
      by_cases h2 : k' = a
      · subst h2
        simp [dlookup]
      · have h2' : a ≠ k' := fun hx => h2 hx.symm
        simp [dlookup, h2, h2', ih]
    · by_cases h2 : k' = k
      · subst h2
        have h1' : a ≠ k' := h1
        simp [dlookup, h1, h1', ih]
      · by_cases h3 : a = k'
        · simp [dlookup, h1, h2, h3]
        · simp [dlookup, h1, h2, h3, ih]

theorem dinsert_eq_dmodify {α : Type} (d : Dict α) (k : String) (v : α) :
    dinsert d k v =
      if (dlookup d k).isSome then dmodify d k (fun _ => v) else d ++ [(k, v)] := rfl

theorem dlookup_dinsert_self {α : Type} (d : Dict α) (k : String) (v : α) :
    dlookup (dinsert d k v) k = some v := by
  rw [dinsert_eq_dmodify]
  by_cases h : (dlookup d k).isSome
  · rw [if_pos h, dlookup_dmodify, if_pos rfl]
    obtain ⟨w, hw⟩ := Option.isSome_iff_exists.mp h
    rw [hw]; rfl
  · rw [if_neg h]
    rw [dlookup_append_of_none (Option.not_isSome_iff_eq_none.mp h)]
    simp

theorem dlookup_dinsert_ne {α : Type} (d : Dict α) (k : String) (v : α) (k' : String)
    (hne : k' ≠ k) : dlookup (dinsert d k v) k' = dlookup d k' := by
  rw [dinsert_eq_dmodify]
  by_cases h : (dlookup d k).isSome
  · rw [if_pos h, dlookup_dmodify, if_neg hne]
  · rw [if_neg h]
    rcases ho : dlookup d k' with _ | w
    · rw [dlookup_append_of_none ho]
      simp only [if_neg (fun hx => hne (hx ▸ rfl) : ¬ (k = k'))]
    · exact dlookup_append_of_some ho _

theorem dlookup_dappend_self (d : Dict (List String)) (k v : String) :
    dlookup (dappend d k v) k = some ((dlookup d k).getD [] ++ [v]) := by
  unfold dappend
  by_cases h : (dlookup d k).isSome
  · rw [if_pos h, dlookup_dmodify, if_pos rfl]
    obtain ⟨w, hw⟩ := Option.isSome_iff_exists.mp h
    rw [hw]; rfl
  · rw [if_neg h]
    have ho := Option.not_isSome_iff_eq_none.mp h
    rw [dlookup_append_of_none ho, ho]
    simp

theorem dlookup_dappend_ne (d : Dict (List String)) (k v : String) (k' : String)
    (hne : k' ≠ k) : dlookup (dappend d k v) k' = dlookup d k' := by
  unfold dappend
  by_cases h : (dlookup d k).isSome
  · rw [if_pos h, dlookup_dmodify, if_neg hne]
  · rw [if_neg h]
    rcases ho : dlookup d k' with _ | w
    · rw [dlookup_append_of_none ho]
      simp only [if_neg (fun hx => hne (hx ▸ rfl) : ¬ (k = k'))]
    · exact dlookup_append_of_some ho _

theorem mem_childrenOf_daddSet_self (d : Dict (List String)) (k v : String) :
    v ∈ childrenOf (daddSet d k v) k := by
  unfold daddSet
  by_cases hm : v ∈ (dlookup d k).getD []
  · rw [if_pos hm]
    exact hm
  · rw [if_neg hm]
    by_cases h : (dlookup d k).isSome
    · rw [if_pos h]
      unfold childrenOf
      rw [dlookup_dmodify, if_pos rfl]
      obtain ⟨w, hw⟩ := Option.isSome_iff_exists.mp h
      rw [hw]
      simp
    · rw [if_neg h]
      unfold childrenOf
      rw [dlookup_append_of_none (Option.not_isSome_iff_eq_none.mp h)]
      simp

theorem mem_childrenOf_daddSet_elim {d : Dict (List String)} {k v p c : String}
    (h : c ∈ childrenOf (daddSet d k v) p) :
    (p = k ∧ c = v) ∨ c ∈ childrenOf d p := by
  unfold daddSet at h
  by_cases hm : v ∈ (dlookup d k).getD []
  · rw [if_pos hm] at h
    exact Or.inr h
  · rw [if_neg hm] at h
    by_cases hs : (dlookup d k).isSome
    · rw [if_pos hs] at h
      unfold childrenOf at h
      rw [dlookup_dmodify] at h
      by_cases hp : p = k
      · rw [if_pos hp] at h
        obtain ⟨w, hw⟩ := Option.isSome_iff_exists.mp hs
        rw [hw] at h
        simp at h
        rcases h with h | h
        · exact Or.inr (by rw [childrenOf, hp, hw]; simpa using h)
        · exact Or.inl ⟨hp, h⟩
      · rw [if_neg hp] at h
        exact Or.inr h
    · rw [if_neg hs] at h
      unfold childrenOf at h
      rcases ho : dlookup d p with _ | w
      · rw [dlookup_append_of_none ho] at h
        by_cases hp : k = p
        · rw [if_pos hp] at h
          simp at h
          exact Or.inl ⟨hp.symm, h⟩
        · rw [if_neg hp] at h
          simp at h
      · rw [dlookup_append_of_some ho] at h
        exact Or.inr (by rw [childrenOf, ho]; simpa using h)

theorem mem_childrenOf_daddSet_mono {d : Dict (List String)} {p c : String}
    (k v : String) (h : c ∈ childrenOf d p) : c ∈ childrenOf (daddSet d k v) p := by
  unfold daddSet
  by_cases hm : v ∈ (dlookup d k).getD []
  · rw [if_pos hm]
    exact h
  · rw [if_neg hm]
    by_cases hs : (dlookup d k).isSome
    · rw [if_pos hs]
      unfold childrenOf at h ⊢
      rw [dlookup_dmodify]
      by_cases hp : p = k
      · rw [if_pos hp, ← hp]
        rcases ho : dlookup d p with _ | w
        · rw [ho] at h; simp at h
        · rw [ho] at h
          simp at h ⊢
          exact Or.inl h
      · rw [if_neg hp]
        exact h
    · rw [if_neg hs]
      unfold childrenOf at h ⊢
      rcases ho : dlookup d p with _ | w
      · rw [ho] at h; simp at h
      · rw [dlookup_append_of_some ho]
        rw [ho] at h
        exact h

/-! ### The prefix loop of `_extract_hierarchy_relations` -/

theorem extract_eq_fold (ttd : Dict String) (tree_number descriptor_name : String)
    (pcr : Dict (List String)) :
    extractHierarchyRelations ttd tree_number descriptor_name pcr =
      (List.range' 1 ((splitDot tree_number).length - 1)).foldl
        (extractStep ttd (splitDot tree_number)) pcr := rfl

theorem mem_extractStep_elim {ttd : Dict String} {parts : List String}
    {acc : Dict (List String)} {i : Nat} {p c : String}
    (h : c ∈ childrenOf (extractStep ttd parts acc i) p) :
    c ∈ childrenOf acc p ∨
      (dlookup ttd (joinDot (parts.take i)) = some p ∧
       dlookup ttd (joinDot (parts.take (i + 1))) = some c) := by
  unfold extractStep at h
  dsimp only [] at h
  split at h
  next pn cn hpn hcn =>
    rcases mem_childrenOf_daddSet_elim h with ⟨hpk, hcv⟩ | hmem
    · subst hpk; subst hcv
      exact Or.inr ⟨hpn, hcn⟩
    · exact Or.inl hmem
  next =>
    exact Or.inl h

theorem mem_extractStep_mono {ttd : Dict String} {parts : List String}
    {acc : Dict (List String)} {i : Nat} {p c : String}
    (h : c ∈ childrenOf acc p) : c ∈ childrenOf (extractStep ttd parts acc i) p := by
  unfold extractStep
  dsimp only []
  split
  · exact mem_childrenOf_daddSet_mono _ _ h
  · exact h

theorem mem_foldl_extractStep_elim {ttd : Dict String} {parts : List String}
    (is : List Nat) {acc : Dict (List String)} {p c : String}
    (h : c ∈ childrenOf (is.foldl (extractStep ttd parts) acc) p) :
    c ∈ childrenOf acc p ∨
      ∃ i ∈ is, dlookup ttd (joinDot (parts.take i)) = some p ∧
        dlookup ttd (joinDot (parts.take (i + 1))) = some c := by
  induction is generalizing acc with
  | nil => exact Or.inl h
  | cons j js ih =>
    rcases ih h with h' | ⟨i, hi, hl⟩
    · rcases mem_extractStep_elim h' with h'' | hpc
      · exact Or.inl h''
      · exact Or.inr ⟨j, by simp, hpc⟩
    · exact Or.inr ⟨i, by simp [hi], hl⟩

theorem mem_foldl_extractStep_mono {ttd : Dict String} {parts : List String}
    (is : List Nat) {acc : Dict (List String)} {p c : String}
    (h : c ∈ childrenOf acc p) : c ∈ childrenOf (is.foldl (extractStep ttd parts) acc) p := by
  induction is generalizing acc with
  | nil => exact h
  | cons j js ih => exact ih (mem_extractStep_mono h)

/-! ### Segment counting for dot-delimited codes -/

theorem splitDotAux_length_pos (l acc : List Char) : 1 ≤ (splitDotAux l acc).length := by
  induction l generalizing acc with
  | nil => simp [splitDotAux]
  | cons c rest ih =>
    by_cases h : c = '.'
    · simp only [splitDotAux, if_pos h, List.length_cons]
      omega
    · simpa [splitDotAux, h] using ih _

theorem splitDotAux_length_two (l acc : List Char) (h : '.' ∈ l) :
    2 ≤ (splitDotAux l acc).length := by
  induction l generalizing acc with
  | nil => simp at h
  | cons c rest ih =>
    by_cases hc : c = '.'
    · have := splitDotAux_length_pos rest []
      simp [splitDotAux, hc]
      omega
    · have hr : '.' ∈ rest := by
        rcases List.mem_cons.mp h with h' | h'
        · exact absurd h'.symm hc
        · exact h'
      simpa [splitDotAux, hc] using ih _ hr

theorem splitDot_length_two {s : String} (h : '.' ∈ s.data) :
    2 ≤ (splitDot s).length :=
  splitDotAux_length_two s.data [] h

theorem dot_mem_joinDot (a b : String) (t : List String) :
    '.' ∈ (joinDot (a :: b :: t)).data := by
  show '.' ∈ ((a ++ ".") ++ joinDot (b :: t)).data
  have hdata : ((a ++ ".") ++ joinDot (b :: t)).data =
      (a.data ++ ['.']) ++ (joinDot (b :: t)).data := rfl
  rw [hdata]
  simp

theorem exists_cons_cons_of_two_le {l : List String} (h : 2 ≤ l.length) :
    ∃ a b t, l = a :: b :: t := by
  match l with
  | [] => simp at h
  | [a] => simp at h
  | a :: b :: t => exact ⟨a, b, t, rfl⟩

theorem joinDot_take_depth {parts : List String} {i : Nat}
    (h1 : 1 ≤ i) (h2 : i + 1 ≤ parts.length) :
    2 ≤ (splitDot (joinDot (parts.take (i + 1)))).length := by
  have hlen : (parts.take (i + 1)).length = i + 1 := List.length_take_of_le h2
  obtain ⟨a, b, t, habt⟩ := exists_cons_cons_of_two_le (l := parts.take (i + 1))
    (by omega)
  rw [habt]
  exact splitDot_length_two (dot_mem_joinDot a b t)

/-! ### Keys and the duplicate-free invariant of `parent_child_relations` -/

theorem dlookup_eq_none_iff {α : Type} (d : Dict α) (k : String) :
    dlookup d k = none ↔ k ∉ d.map Prod.fst := by
  induction d with
  | nil => simp [dlookup]
  | cons hd tl ih =>
    obtain ⟨a, b⟩ := hd
    by_cases h : a = k
    · simp [dlookup, h]
    · simp only [dlookup, if_neg h, List.map_cons, List.mem_cons]
      rw [ih]
      constructor
      · intro hnk hor
        rcases hor with h1 | h2
        · exact h h1.symm
        · exact hnk h2
      · intro hnk h2
        exact hnk (Or.inr h2)

theorem dlookup_of_mem_keysNodup {α : Type} {d : Dict α} {k : String} {w : α}
    (hn : (d.map Prod.fst).Nodup) (hm : (k, w) ∈ d) : dlookup d k = some w := by
  induction d with
  | nil => simp at hm
  | cons hd tl ih =>
    obtain ⟨a, b⟩ := hd
    simp only [List.map_cons, List.nodup_cons] at hn
    rcases List.mem_cons.mp hm with he | hm'
    · injection he with h1 h2
      subst h1; subst h2
      simp [dlookup]
    · by_cases h : a = k
      · subst h
        have : a ∈ tl.map Prod.fst := by
          simpa using List.mem_map_of_mem Prod.fst hm'
        exact absurd this hn.1
      · simp only [dlookup, if_neg h]
        exact ih hn.2 hm'

theorem map_fst_dmodify {α : Type} (d : Dict α) (k : String) (f : α → α) :
    (dmodify d k f).map Prod.fst = d.map Prod.fst := by
  induction d with
  | nil => rfl
  | cons hd tl ih =>
    obtain ⟨a, b⟩ := hd
    unfold dmodify at ih ⊢
    by_cases h : a = k <;> simp [h, ih]

theorem mem_dmodify_elim {α : Type} {d : Dict α} {k : String} {f : α → α}
    {e' : String × α} (h : e' ∈ dmodify d k f) :
    ∃ e ∈ d, e' = if e.1 = k then (e.1, f e.2) else e := by
  unfold dmodify at h
  obtain ⟨e, he, hee⟩ := List.mem_map.mp h
  exact ⟨e, he, hee.symm⟩

theorem PCRInv_daddSet {d : Dict (List String)} (hInv : PCRInv d) (k v : String) :
    PCRInv (daddSet d k v) := by
  obtain ⟨hkeys, hvals⟩ := hInv
  unfold daddSet
  by_cases hm : v ∈ (dlookup d k).getD []
  · rw [if_pos hm]; exact ⟨hkeys, hvals⟩
  · rw [if_neg hm]
    by_cases hs : (dlookup d k).isSome
    · rw [if_pos hs]
      refine ⟨by rw [map_fst_dmodify]; exact hkeys, ?_⟩
      intro e' he'
      obtain ⟨e, he, hee⟩ := mem_dmodify_elim he'
      by_cases hek : e.1 = k
      · rw [if_pos hek] at hee
        subst hee
        have hvnd : (e.2 : List String).Nodup := hvals e he
        have hlk : dlookup d k = some e.2 := by
          rw [← hek]
          exact dlookup_of_mem_keysNodup hkeys (by simpa using he)
        have hv : v ∉ (e.2 : List String) := by
          rw [hlk] at hm; simpa using hm
        simp [List.nodup_append, hvnd, hv]
      · rw [if_neg hek] at hee
        subst hee
        exact hvals e' he
    · rw [if_neg hs]
      have hnone := Option.not_isSome_iff_eq_none.mp hs
      have hk : k ∉ d.map Prod.fst := (dlookup_eq_none_iff d k).mp hnone
      refine ⟨?_, ?_⟩
      · rw [List.map_append]
        simp [List.nodup_append, hkeys, hk]
      · intro e' he'
        rcases List.mem_append.mp he' with h' | h'
        · exact hvals e' h'
        · simp at h'
          subst h'
          simp

theorem PCRInv_extractStep {acc : Dict (List String)} (h : PCRInv acc)
    (ttd : Dict String) (parts : List String) (i : Nat) :
    PCRInv (extractStep ttd parts acc i) := by
  unfold extractStep
  dsimp only []
  split
  · exact PCRInv_daddSet h _ _
  · exact h

theorem PCRInv_foldl_extractStep (ttd : Dict String) (parts : List String)
    (is : List Nat) {acc : Dict (List String)} (h : PCRInv acc) :
    PCRInv (is.foldl (extractStep ttd parts) acc) := by
  induction is generalizing acc with
  | nil => exact h
  | cons j js ih => exact ih (PCRInv_extractStep h ttd parts j)

theorem PCRInv_extract {pcr : Dict (List String)} (h : PCRInv pcr)
    (ttd : Dict String) (tree_number descriptor_name : String) :
    PCRInv (extractHierarchyRelations ttd tree_number descriptor_name pcr) := by
  rw [extract_eq_fold]
  exact PCRInv_foldl_extractStep _ _ _ h

theorem v2ProcessTree_pcr (u n : String) (s : StateV2) (t : String) :
    (v2ProcessTree u n s t).parent_child_relations =
      extractHierarchyRelations (dinsert s.tree_to_descriptor t n) t n
        s.parent_child_relations := rfl

theorem PCRInv_v2ProcessTree {s : StateV2} (h : PCRInv s.parent_child_relations)
    (u n t : String) : PCRInv (v2ProcessTree u n s t).parent_child_relations := by
  rw [v2ProcessTree_pcr]
  exact PCRInv_extract h _ _ _

theorem PCRInv_v2TreeFold (u n : String) (ts : List String) {s : StateV2}
    (h : PCRInv s.parent_child_relations) :
    PCRInv ((ts.foldl (v2ProcessTree u n) s).parent_child_relations) := by
  induction ts generalizing s with
  | nil => exact h
  | cons t ts ih => exact ih (PCRInv_v2ProcessTree h u n t)

theorem PCRInv_v2ProcessRecord {s : StateV2} (h : PCRInv s.parent_child_relations)
    (r : RawRecord) : PCRInv (v2ProcessRecord s r).parent_child_relations := by
  unfold v2ProcessRecord
  split
  · exact PCRInv_v2TreeFold _ _ _ h
  · exact h

theorem PCRInv_v2ParseRecords (records : List RawRecord) {s : StateV2}
    (h : PCRInv s.parent_child_relations) :
    PCRInv (v2ParseRecords s records).parent_child_relations := by
  induction records generalizing s with
  | nil => exact h
  | cons r rs ih => exact ih (PCRInv_v2ProcessRecord h r)

/-! ### Counting sibling pairs -/

theorem sibPairs_length_two (cs : List String) :
    (sibPairs cs).length * 2 = cs.length * (cs.length - 1) := by
  induction cs with
  | nil => rfl
  | cons c rest ih =>
    simp only [sibPairs, List.length_append, List.length_map, List.length_cons]
    have h1 : rest.length + 1 - 1 = rest.length := rfl
    rw [h1]
    rcases hn : rest.length with _ | m
    · rw [hn] at ih
      omega
    · rw [hn] at ih
      have e1 : (m + 1) * (m + 1 - 1) = m * m + m := by
        have : m + 1 - 1 = m := rfl
        rw [this]; ring
      have e2 : (m + 1 + 1) * (m + 1) = m * m + 3 * m + 2 := by ring
      rw [e1] at ih
      rw [e2]
      generalize m * m = q at ih ⊢
      omega

theorem sibPairs_ne {cs : List String} (h : cs.Nodup) :
    ∀ t ∈ sibPairs cs, t.1 ≠ t.2.1 := by
  induction cs with
  | nil => intro t ht; simp [sibPairs] at ht
  | cons c rest ih =>
    intro t ht
    simp only [sibPairs, List.mem_append] at ht
    rcases ht with ht | ht
    · obtain ⟨c2, hc2, hteq⟩ := List.mem_map.mp ht
      subst hteq
      intro hcc
      rw [List.nodup_cons] at h
      exact h.1 (by rw [show c = c2 from hcc]; exact hc2)
    · exact ih (List.nodup_cons.mp h).2 t ht

/-! ### Retention of accumulated state across a second parse -/

theorem dlookup_isSome_iff {α : Type} (d : Dict α) (k : String) :
    (dlookup d k).isSome ↔ k ∈ d.map Prod.fst := by
  constructor
  · intro hs
    by_contra hmem
    rw [← dlookup_eq_none_iff] at hmem
    rw [hmem] at hs
    simp at hs
  · intro hmem
    rcases ho : dlookup d k with _ | w
    · exact absurd hmem ((dlookup_eq_none_iff d k).mp ho)
    · rfl

theorem dlookup_dappend_retains {d : Dict (List String)} {k : String} {v : List String}
    (h : dlookup d k = some v) (k' v' : String) :
    ∃ t, dlookup (dappend d k' v') k = some (v ++ t) := by
  by_cases hk : k = k'
  · subst hk
    refine ⟨[v'], ?_⟩
    rw [dlookup_dappend_self, h]
    rfl
  · exact ⟨[], by rw [dlookup_dappend_ne _ _ _ _ hk, h, List.append_nil]⟩

theorem dlookup_dinsert_isSome {α : Type} {d : Dict α} {k : String}
    (h : (dlookup d k).isSome) (k' : String) (v : α) :
    (dlookup (dinsert d k' v) k).isSome := by
  by_cases hk : k = k'
  · subst hk
    rw [dlookup_dinsert_self]
    rfl
  · rw [dlookup_dinsert_ne _ _ _ _ hk]
    exact h

theorem mem_extract_mono {ttd : Dict String} {pcr : Dict (List String)}
    (tree_number descriptor_name : String) {p c : String}
    (h : c ∈ childrenOf pcr p) :
    c ∈ childrenOf (extractHierarchyRelations ttd tree_number descriptor_name pcr) p := by
  rw [extract_eq_fold]
  exact mem_foldl_extractStep_mono _ h

theorem Retains_refl (s : StateV2) : Retains s s :=
  ⟨fun k v h => ⟨[], by rw [h, List.append_nil]⟩,
   fun k v h => ⟨[], by rw [h, List.append_nil]⟩,
   fun _ h => h, fun _ h => h, fun _ _ h => h⟩

theorem Retains_trans {a b c : StateV2} (h1 : Retains a b) (h2 : Retains b c) :
    Retains a c := by
  obtain ⟨d1, u1, t1, w1, p1⟩ := h1
  obtain ⟨d2, u2, t2, w2, p2⟩ := h2
  refine ⟨?_, ?_, ?_, ?_, ?_⟩
  · intro k v h
    obtain ⟨ta, ha⟩ := d1 k v h
    obtain ⟨tb, hb⟩ := d2 k _ ha
    exact ⟨ta ++ tb, by rw [hb, List.append_assoc]⟩
  · intro k v h
    obtain ⟨ta, ha⟩ := u1 k v h
    obtain ⟨tb, hb⟩ := u2 k _ ha
    exact ⟨ta ++ tb, by rw [hb, List.append_assoc]⟩
  · exact fun k h => t2 k (t1 k h)
  · exact fun k h => w2 k (w1 k h)
  · exact fun p c h => p2 p c (p1 p c h)

theorem Retains_v2ProcessTree (u n : String) (s : StateV2) (t : String) :
    Retains s (v2ProcessTree u n s t) := by
  refine ⟨?_, ?_, ?_, ?_, ?_⟩
  · intro k v h
    exact dlookup_dappend_retains h n t
  · intro k v h
    exact dlookup_dappend_retains h u t
  · intro k h
    exact dlookup_dinsert_isSome h t n
  · intro k h
    exact dlookup_dinsert_isSome h t u
  · intro p c h
    rw [v2ProcessTree_pcr]
    exact mem_extract_mono _ _ h

theorem Retains_v2TreeFold (u n : String) (ts : List String) (s : StateV2) :
    Retains s (ts.foldl (v2ProcessTree u n) s) := by
  induction ts generalizing s with
  | nil => exact Retains_refl s
  | cons t ts ih =>
    exact Retains_trans (Retains_v2ProcessTree u n s t) (ih _)

theorem Retains_v2ProcessRecord (s : StateV2) (r : RawRecord) :
    Retains s (v2ProcessRecord s r) := by
  unfold v2ProcessRecord
  split
  · dsimp only []
    refine Retains_trans ?_ (Retains_v2TreeFold _ _ _ _)
    exact Retains_refl s
  · exact Retains_refl s

theorem Retains_v2ParseRecords (records : List RawRecord) (s : StateV2) :
    Retains s (v2ParseRecords s records) := by
  induction records generalizing s with
  | nil => exact Retains_refl s
  | cons r rs ih =>
    exact Retains_trans (Retains_v2ProcessRecord s r) (ih _)

theorem Retains_reset (s : StateV2) : Retains s { s with descriptor_details := [] } :=
  Retains_refl s

/-! ### `descriptor_details` is determined by the records of the call -/

theorem dd_v2ProcessTree (u n : String) (s : StateV2) (t : String) :
    (v2ProcessTree u n s t).descriptor_details =
      dmodify s.descriptor_details u
        (fun d => { d with tree_numbers := d.tree_numbers ++ [t] }) := rfl

theorem dd_congr_treeFold (u n : String) (ts : List String) {s s' : StateV2}
    (h : s.descriptor_details = s'.descriptor_details) :
    (ts.foldl (v2ProcessTree u n) s).descriptor_details =
      (ts.foldl (v2ProcessTree u n) s').descriptor_details := by
  induction ts generalizing s s' with
  | nil => exact h
  | cons t ts ih =>
    exact ih (by rw [dd_v2ProcessTree, dd_v2ProcessTree, h])

theorem dd_congr_processRecord {s s' : StateV2}
    (h : s.descriptor_details = s'.descriptor_details) (r : RawRecord) :
    (v2ProcessRecord s r).descriptor_details =
      (v2ProcessRecord s' r).descriptor_details := by
  unfold v2ProcessRecord
  rcases r.ui with _ | u <;> rcases r.name with _ | n
  · exact h
  · exact h
  · exact h
  · exact dd_congr_treeFold u n _ (by simpa using congrArg (dinsert · u _) h)

theorem dd_congr_parseRecords (records : List RawRecord) {s s' : StateV2}
    (h : s.descriptor_details = s'.descriptor_details) :
    (v2ParseRecords s records).descriptor_details =
      (v2ParseRecords s' records).descriptor_details := by
  induction records generalizing s s' with
  | nil => exact h
  | cons r rs ih =>
    exact ih (dd_congr_processRecord h r)

/-! ### Insertion order of `descriptor_details` keys and the name search -/

theorem map_fst_dinsert {α : Type} (d : Dict α) (k : String) (v : α) :
    (dinsert d k v).map Prod.fst =
      if k ∈ d.map Prod.fst then d.map Prod.fst else d.map Prod.fst ++ [k] := by
  rw [dinsert_eq_dmodify]
  by_cases h : (dlookup d k).isSome
  · rw [if_pos h, map_fst_dmodify, if_pos ((dlookup_isSome_iff d k).mp h)]
  · rw [if_neg h, List.map_append,
      if_neg (fun hm => h ((dlookup_isSome_iff d k).mpr hm))]
    rfl

theorem dd_keys_treeFold (u n : String) (ts : List String) (s : StateV2) :
    ((ts.foldl (v2ProcessTree u n) s).descriptor_details).map Prod.fst =
      s.descriptor_details.map Prod.fst := by
  induction ts generalizing s with
  | nil => rfl
  | cons t ts ih =>
    rw [List.foldl_cons, ih, dd_v2ProcessTree, map_fst_dmodify]

theorem dd_keys_processRecord (s : StateV2) (r : RawRecord) :
    (v2ProcessRecord s r).descriptor_details.map Prod.fst =
      if keepRec r then
        (if (r.ui.getD "") ∈ s.descriptor_details.map Prod.fst
         then s.descriptor_details.map Prod.fst
         else s.descriptor_details.map Prod.fst ++ [r.ui.getD ""])
      else s.descriptor_details.map Prod.fst := by
  unfold v2ProcessRecord keepRec
  rcases hu : r.ui with _ | u <;> rcases hn : r.name with _ | n
  · simp
  · simp
  · simp
  · dsimp only []
    rw [dd_keys_treeFold]
    simp only [Option.isSome_some, Bool.and_self, if_true, Option.getD_some]
    exact map_fst_dinsert _ _ _

theorem v2ParseRecords_cons (s : StateV2) (r : RawRecord) (rs : List RawRecord) :
    v2ParseRecords s (r :: rs) = v2ParseRecords (v2ProcessRecord s r) rs := rfl

theorem firstKeysFrom_cons (acc : List String) (u : String) (us : List String) :
    firstKeysFrom acc (u :: us) =
      firstKeysFrom (if u ∈ acc then acc else acc ++ [u]) us := rfl

theorem acceptedUis_cons (r : RawRecord) (rs : List RawRecord) :
    acceptedUis (r :: rs) =
      if keepRec r then r.ui.getD "" :: acceptedUis rs else acceptedUis rs := by
  unfold acceptedUis
  by_cases h : keepRec r <;> simp [List.filter_cons, h]

theorem dd_keys_parseRecords (records : List RawRecord) (s : StateV2) :
    (v2ParseRecords s records).descriptor_details.map Prod.fst =
      firstKeysFrom (s.descriptor_details.map Prod.fst) (acceptedUis records) := by
  induction records generalizing s with
  | nil => rfl
  | cons r rs ih =>
    rw [v2ParseRecords_cons, ih, acceptedUis_cons]
    by_cases h : keepRec r
    · rw [if_pos h, firstKeysFrom_cons]
      congr 1
      rw [dd_keys_processRecord, if_pos h]
    · rw [if_neg h]
      congr 1
      rw [dd_keys_processRecord, if_neg h]

theorem searchLoop_eq_none (s : StateV2) (q : String) (l : Dict Details)
    (h : ∀ e ∈ l, lowerStr e.2.name ≠ lowerStr q) : searchLoop s q l = none := by
  induction l with
  | nil => rfl
  | cons e rest ih =>
    obtain ⟨mid, det⟩ := e
    have hne := h (mid, det) (by simp)
    simp only [searchLoop]
    rw [if_neg (by simpa using hne)]
    exact ih (fun e he => h e (by simp [he]))

theorem searchLoop_first (s : StateV2) (q : String) (l : Dict Details) :
    ∀ (i : Nat) (hi : i < l.length),
      lowerStr (l.get ⟨i, hi⟩).2.name = lowerStr q →
      (∀ j, (hj : j < i) → lowerStr (l.get ⟨j, by omega⟩).2.name ≠ lowerStr q) →
      searchLoop s q l = (getMeshById s (l.get ⟨i, hi⟩).1).1 := by
  induction l with
  | nil => intro i hi; simp at hi
  | cons e rest ih =>
    intro i hi hmatch hbefore
    obtain ⟨mid, det⟩ := e
    rcases i with _ | i'
    · simp only [List.get] at hmatch
      simp only [searchLoop, List.get]
      rw [if_pos (by simpa using hmatch)]
    · have hne := hbefore 0 (by omega)
      simp only [List.get] at hne
      simp only [searchLoop, List.get]
      rw [if_neg (by simpa using hne)]
      exact ih i' (by simpa using hi) (by simpa using hmatch)
        (fun j hj => by simpa using hbefore (j + 1) (by omega))

/-! ### Small unfolding equations for the parse entry points -/

theorem v2Parse_wellFormed (s : StateV2) (records : List RawRecord) :
    v2Parse s (.wellFormed records) =
      .ok (v2ParseRecords { s with descriptor_details := [] } records) := rfl

theorem v2ProcessRecord_skip {r : RawRecord} (h : keepRec r = false) (s : StateV2) :
    v2ProcessRecord s r = s := by
  unfold v2ProcessRecord
  unfold keepRec at h
  rcases hu : r.ui with _ | u <;> rcases hn : r.name with _ | n <;>
    simp [hu, hn] at h ⊢

theorem v2ParseRecords_filter (records : List RawRecord) (s : StateV2) :
    v2ParseRecords s records = v2ParseRecords s (records.filter keepRec) := by
  induction records generalizing s with
  | nil => rfl
  | cons r rs ih =>
    by_cases h : keepRec r
    · rw [v2ParseRecords_cons, ih, List.filter_cons, if_pos h, v2ParseRecords_cons]
    · rw [v2ParseRecords_cons, ih, List.filter_cons,
        if_neg h, v2ProcessRecord_skip (Bool.not_eq_true _ ▸ h) s]

/-! ### The claims -/

/-- Claim C1.  The pair-generation operation is specified to return the
concatenation of all parent-child triples followed by all sibling
triples.  v1's `get_label_hierarchy_for_micol` does return
`similarPairs`; v2's method body builds the very same list but ends
without a `return` statement, so every v2 call evaluates to `None` — at
the Scenario-B state the built (and discarded) list is the single triple
`("Root", "Child", "parent_child")`. -/
theorem v2_pair_generation_returns_none :
    (∀ s : StateV2, v2GetLabelHierarchyForMicol s = none) ∧
    (∀ s : StateV1, v1GetLabelHierarchyForMicol s =
      parentChildTriples s.parent_child_relations ++
        siblingTriples s.parent_child_relations) ∧
    v2Parse initStateV2 (.wellFormed [recRoot, recChild]) =
      .ok (v2Out initStateV2 (.wellFormed [recRoot, recChild])) ∧
    similarPairs (v2Out initStateV2
        (.wellFormed [recRoot, recChild])).parent_child_relations =
      [("Root", "Child", "parent_child")] :=
  ⟨fun _ => rfl, fun _ => rfl, rfl, rfl⟩

/-- Claim C2 (corrected), counterexample to the claim as stated: v1's
`parse_mesh_xml` does not skip a record whose identifier element is
missing — `find('DescriptorUI').text` raises `AttributeError`. -/
theorem v1_parse_raises_on_missing_identifier :
    v1Parse initStateV1 (.wellFormed [recNoUi]) =
      .error (.attributeError, initStateV1) := rfl

/-- Claim C2 (amended).  In v2, a record missing its identifier element or
its name element is skipped entirely: parsing any catalog gives exactly
the same result as parsing the catalog restricted to the complete
records, so such a record contributes no entry to any structure or
output pair and raises nothing.  In v1, by contrast, the per-record step
raises `AttributeError` on such a record. -/
theorem v2_parse_skips_incomplete_records :
    (∀ (s : StateV2) (records : List RawRecord),
      v2Parse s (.wellFormed records) =
        v2Parse s (.wellFormed (records.filter keepRec))) ∧
    (∀ (s : StateV1) (r : RawRecord), (r.ui = none ∨ r.name = none) →
      v1ProcessRecord s r = .error (.attributeError, s)) := by
  constructor
  · intro s records
    rw [v2Parse_wellFormed, v2Parse_wellFormed, v2ParseRecords_filter]
  · intro s r h
    unfold v1ProcessRecord
    rcases h with h | h
    · rw [h]
    · rcases hu : r.ui with _ | u
      · rfl
      · rw [h]

/-- Witness for the amended claim C2 at a concrete input. -/
theorem v2_parse_skips_incomplete_records_witness :
    v1ProcessRecord initStateV1 recNoUi = .error (.attributeError, initStateV1) :=
  v2_parse_skips_incomplete_records.2 initStateV1 recNoUi (Or.inl rfl)

/-- Claim C3.  An edge can be created by `_extract_hierarchy_relations`
only when both the parent-candidate prefix and the child-candidate
prefix are keys of `tree_to_descriptor` at the time the call runs (any
newly present membership comes from some loop index whose two joined
prefixes both resolve); consequently the two-record catalog that
registers the child's code `C01.001` before the parent's code `C01`
produces zero edges. -/
theorem edges_require_both_codes_registered :
    (∀ (ttd : Dict String) (tree_number descriptor_name : String)
       (pcr : Dict (List String)) (p c : String),
      c ∈ childrenOf (extractHierarchyRelations ttd tree_number descriptor_name pcr) p →
      c ∉ childrenOf pcr p →
      ∃ i ∈ List.range' 1 ((splitDot tree_number).length - 1),
        dlookup ttd (joinDot ((splitDot tree_number).take i)) = some p ∧
        dlookup ttd (joinDot ((splitDot tree_number).take (i + 1))) = some c) ∧
    v2Parse initStateV2 (.wellFormed [recChild, recRoot]) =
      .ok (v2Out initStateV2 (.wellFormed [recChild, recRoot])) ∧
    (v2Out initStateV2 (.wellFormed [recChild, recRoot])).parent_child_relations = [] := by
  refine ⟨?_, rfl, rfl⟩
  intro ttd tn dn pcr p c hmem hnot
  rw [extract_eq_fold] at hmem
  rcases mem_foldl_extractStep_elim _ hmem with h | ⟨i, hi, hl⟩
  · exact absurd h hnot
  · exact ⟨i, hi, hl⟩

/-- Witness for claim C3 at a concrete table and tree number. -/
theorem edges_require_both_codes_registered_witness :
    ∃ i ∈ List.range' 1 ((splitDot "C01.001").length - 1),
      dlookup [("C01", "Root"), ("C01.001", "Child")]
        (joinDot ((splitDot "C01.001").take i)) = some "Root" ∧
      dlookup [("C01", "Root"), ("C01.001", "Child")]
        (joinDot ((splitDot "C01.001").take (i + 1))) = some "Child" :=
  edges_require_both_codes_registered.1 [("C01", "Root"), ("C01.001", "Child")]
    "C01.001" "Child" [] "Root" "Child" (by decide) (by decide)

/-- Claim C4.  On malformed markup, both versions of `parse_mesh_xml`
raise the distinguishable parse error (`ET.ParseError`, the spec's
`MalformedInput`) from the very first statement, so the raised state is
exactly the pre-call state: no lookup structure is touched and no
partial graph exists. -/
theorem malformed_input_raises_and_preserves_state :
    ∀ (s1 : StateV1) (s2 : StateV2),
      v1Parse s1 .malformed = .error (.parseError, s1) ∧
      v2Parse s2 .malformed = .error (.parseError, s2) :=
  fun _ _ => ⟨rfl, rfl⟩

/-- Claim C5.  In any state built by a v2 parse, every parent entry with
`k` registered children yields exactly `k*(k-1)/2` sibling triples, and
no sibling triple pairs a name with itself (the children list is a set,
hence duplicate-free). -/
theorem sibling_pairs_count_and_irreflexive :
    ∀ (records : List RawRecord) (st : StateV2),
      v2Parse initStateV2 (.wellFormed records) = .ok st →
      ∀ p cs, (p, cs) ∈ st.parent_child_relations →
        (sibPairs cs).length = cs.length * (cs.length - 1) / 2 ∧
        ∀ t ∈ sibPairs cs, t.1 ≠ t.2.1 := by
  intro records st hok p cs hmem
  rw [v2Parse_wellFormed] at hok
  injection hok with hok
  subst hok
  have hinv : PCRInv (v2ParseRecords
      { initStateV2 with descriptor_details := [] } records).parent_child_relations :=
    PCRInv_v2ParseRecords records ⟨by simp [initStateV2], by simp [initStateV2]⟩
  have hnd : cs.Nodup := hinv.2 (p, cs) hmem
  constructor
  · have h2 := sibPairs_length_two cs
    generalize cs.length * (cs.length - 1) = m at h2 ⊢
    omega
  · exact sibPairs_ne hnd

/-- Witness for claim C5: Scenario D's parent `Root` has children
`[A, B]`, giving one sibling pair and no self-pair. -/
theorem sibling_pairs_count_and_irreflexive_witness :
    (sibPairs ["A", "B"]).length = ["A", "B"].length * (["A", "B"].length - 1) / 2 ∧
    ∀ t ∈ sibPairs ["A", "B"], t.1 ≠ t.2.1 :=
  sibling_pairs_count_and_irreflexive [recRoot, recA, recB]
    (v2Out initStateV2 (.wellFormed [recRoot, recA, recB])) rfl
    "Root" ["A", "B"] (by decide)

/-- Claim C6.  Every edge newly created by a run of
`_extract_hierarchy_relations` has as its child candidate a joined
prefix of length at least two segments: the child name always resolves
from a code of depth ≥ 2, so a depth-1 (dotless) code is never the
child candidate of any created edge. -/
theorem child_candidate_code_depth_at_least_two :
    ∀ (ttd : Dict String) (tree_number descriptor_name : String)
      (pcr : Dict (List String)) (p c : String),
      c ∈ childrenOf (extractHierarchyRelations ttd tree_number descriptor_name pcr) p →
      c ∉ childrenOf pcr p →
      ∃ ctree, dlookup ttd ctree = some c ∧ 2 ≤ (splitDot ctree).length := by
  intro ttd tn dn pcr p c hmem hnot
  rw [extract_eq_fold] at hmem
  rcases mem_foldl_extractStep_elim _ hmem with h | ⟨i, hi, hp, hc⟩
  · exact absurd h hnot
  · refine ⟨joinDot ((splitDot tn).take (i + 1)), hc, ?_⟩
    rw [List.mem_range'_1] at hi
    exact joinDot_take_depth hi.1 (by omega)

/-- Witness for claim C6 at a concrete table and tree number. -/
theorem child_candidate_code_depth_at_least_two_witness :
    ∃ ctree, dlookup [("C01", "Root"), ("C01.001", "Child")] ctree = some "Child" ∧
      2 ≤ (splitDot ctree).length :=
  child_candidate_code_depth_at_least_two [("C01", "Root"), ("C01.001", "Child")]
    "C01.001" "Child" [] "Root" "Child" (by decide) (by decide)

/-- Claim C7.  The three read-only lookups mutate no component state (the
state they hand back is the input state), and an unknown identifier or
name yields an absent result (`None`) rather than an exception. -/
theorem lookups_pure_and_absent_on_unknown :
    ∀ (st : StateV2) (mesh_id term_name : String),
      (dlookup st.descriptor_details mesh_id = none →
        (getMeshById st mesh_id).1 = none ∧
        (getHierarchyRelationsById st mesh_id).1 = .ok none) ∧
      ((∀ e ∈ st.descriptor_details, lowerStr e.2.name ≠ lowerStr term_name) →
        (searchMeshByName st term_name).1 = none) ∧
      (getMeshById st mesh_id).2 = st ∧
      (searchMeshByName st term_name).2 = st ∧
      (getHierarchyRelationsById st mesh_id).2 = st := by
  intro st mid q
  refine ⟨?_, ?_, rfl, rfl, rfl⟩
  · intro h
    constructor
    · unfold getMeshById
      dsimp only []
      rw [h]
    · unfold getHierarchyRelationsById
      dsimp only []
      rw [h]
  · intro h
    unfold searchMeshByName
    exact searchLoop_eq_none st q _ h

/-- Witness for claim C7: unknown id and name on a freshly built state. -/
theorem lookups_pure_and_absent_on_unknown_witness :
    ((getMeshById (v2Out initStateV2 (.wellFormed [recRoot])) "ZZZ").1 = none ∧
     (getHierarchyRelationsById (v2Out initStateV2 (.wellFormed [recRoot])) "ZZZ").1 =
       .ok none) ∧
    (searchMeshByName (v2Out initStateV2 (.wellFormed [recRoot])) "zzz").1 = none := by
  have h := lookups_pure_and_absent_on_unknown
    (v2Out initStateV2 (.wellFormed [recRoot])) "ZZZ" "zzz"
  exact ⟨h.1 (by decide), h.2.1 (by decide)⟩

/-- Claim C8 (corrected), counterexample to the claim as stated: a second
parse does not retain every accumulated `tree_to_descriptor` entry — a
tree number re-registered under a new name is overwritten, so the old
entry `("C01", "Root")` is gone after the second call. -/
theorem second_parse_overwrites_tree_mapping :
    ("C01", "Root") ∈ (v2Out initStateV2 (.wellFormed [recRoot])).tree_to_descriptor ∧
    v2Parse (v2Out initStateV2 (.wellFormed [recRoot])) (.wellFormed [recOther]) =
      .ok (v2Out (v2Out initStateV2 (.wellFormed [recRoot])) (.wellFormed [recOther])) ∧
    ("C01", "Root") ∉ (v2Out (v2Out initStateV2 (.wellFormed [recRoot]))
        (.wellFormed [recOther])).tree_to_descriptor :=
  ⟨by decide, rfl, by decide⟩

/-- Claim C8 (amended).  A second v2 `parse_mesh_xml` call resets
`descriptor_details` to the records of the new input alone (the result
is exactly what a fresh extractor would hold after parsing the same
records), while the other five structures are not cleared: every
accumulated key stays present, list-valued entries keep their old
elements as a prefix, and every parent/child membership survives — but
a re-registered tree number's mapping is overwritten with the new
value (per the counterexample). -/
theorem second_parse_resets_details_and_retains_keys :
    ∀ (s : StateV2) (records : List RawRecord) (st st0 : StateV2),
      v2Parse s (.wellFormed records) = .ok st →
      v2Parse initStateV2 (.wellFormed records) = .ok st0 →
      st.descriptor_details = st0.descriptor_details ∧ Retains s st := by
  intro s records st st0 h1 h2
  rw [v2Parse_wellFormed] at h1 h2
  injection h1 with h1
  injection h2 with h2
  subst h1
  subst h2
  constructor
  · exact dd_congr_parseRecords records rfl
  · exact Retains_trans (Retains_reset s) (Retains_v2ParseRecords records _)

/-- Witness for the amended claim C8 at a concrete pair of parses. -/
theorem second_parse_resets_details_and_retains_keys_witness :
    (v2Out (v2Out initStateV2 (.wellFormed [recRoot]))
        (.wellFormed [recOther])).descriptor_details =
      (v2Out initStateV2 (.wellFormed [recOther])).descriptor_details ∧
    Retains (v2Out initStateV2 (.wellFormed [recRoot]))
      (v2Out (v2Out initStateV2 (.wellFormed [recRoot])) (.wellFormed [recOther])) :=
  second_parse_resets_details_and_retains_keys
    (v2Out initStateV2 (.wellFormed [recRoot])) [recOther] _ _ rfl rfl

/-- Claim C9.  A single record owning both `C01` and its one-segment
extension `C01.001` (in that order) produces the self-edge
`NN → NN` in `parent_child_relations`, and the v1 pair generator then
emits the self-paired triple `("NN", "NN", "parent_child")`. -/
theorem self_edge_and_self_pair_from_extension :
    v1Parse initStateV1 (.wellFormed [recSelf]) =
      .ok (v1Out initStateV1 (.wellFormed [recSelf])) ∧
    dlookup (v1Out initStateV1 (.wellFormed [recSelf])).parent_child_relations "NN" =
      some ["NN"] ∧
    ("NN", "NN", "parent_child") ∈
      v1GetLabelHierarchyForMicol (v1Out initStateV1 (.wellFormed [recSelf])) :=
  ⟨rfl, by decide, by decide⟩

/-- Claim C10.  After a v2 parse, the keys of `descriptor_details` appear
in order of first insertion (first accepted occurrence in the catalog),
and `search_mesh_by_name` returns the `get_mesh_by_id` view of the
first entry, in that order, whose name matches case-insensitively —
never a later one. -/
theorem search_returns_earliest_inserted_match :
    ∀ (records : List RawRecord) (st : StateV2) (q : String),
      v2Parse initStateV2 (.wellFormed records) = .ok st →
      (st.descriptor_details.map Prod.fst = firstKeysFrom [] (acceptedUis records)) ∧
      ∀ (i : Nat) (hi : i < st.descriptor_details.length),
        lowerStr (st.descriptor_details.get ⟨i, hi⟩).2.name = lowerStr q →
        (∀ j, (hj : j < i) →
          lowerStr (st.descriptor_details.get ⟨j, by omega⟩).2.name ≠ lowerStr q) →
        (searchMeshByName st q).1 =
          (getMeshById st (st.descriptor_details.get ⟨i, hi⟩).1).1 := by
  intro records st q hok
  rw [v2Parse_wellFormed] at hok
  injection hok with hok
  subst hok
  constructor
  · exact dd_keys_parseRecords records _
  · intro i hi hmatch hbefore
    unfold searchMeshByName
    exact searchLoop_first _ _ _ i hi hmatch hbefore

/-- Witness for claim C10: two identifiers share the name `Dup` up to
case; the search returns the view of the first-inserted one. -/
theorem search_returns_earliest_inserted_match_witness :
    ((v2Out initStateV2 (.wellFormed [recDup1, recDup2])).descriptor_details.map
        Prod.fst = firstKeysFrom [] (acceptedUis [recDup1, recDup2])) ∧
    (searchMeshByName (v2Out initStateV2 (.wellFormed [recDup1, recDup2])) "dup").1 =
      (getMeshById (v2Out initStateV2 (.wellFormed [recDup1, recDup2]))
        ((v2Out initStateV2
            (.wellFormed [recDup1, recDup2])).descriptor_details.get ⟨0, by decide⟩).1).1 := by
  have h := search_returns_earliest_inserted_match [recDup1, recDup2]
    (v2Out initStateV2 (.wellFormed [recDup1, recDup2])) "dup" rfl
  exact ⟨h.1, h.2 0 (by decide) (by decide) (fun j hj => absurd hj (by omega))⟩
